import Mathlib

/-!
Shallow embedding of `src/src/util/tapebuffer.h` (class `TapeBuffer`): the
tape slice interval index (`TapeSliceSet`), the ring buffer (`RingBuffer`),
and the facade operations `readFW` / `readBW` / `writeFW` / `goTo` /
`position` / `lift` / `drop`.

The repository contains only the header; the `.cpp` file implementing the
declared operations is not part of the sources.  Consequently every
operation body below that is not inline in the header is modelled from the
specification (each such definition carries a doc comment starting with
`Modelled from the spec:`).  The declarations, field types, comparator,
`wrapIdx`, `position`, the clipboard sentinel `{-1, -2}` and the constant
`SIZE = 262144` are taken directly from the header.

Machine integers: `TapeTime` is C `int`; tape times are embedded as `Int`.
`unsigned int` state (`playPoint`, `posAt0`) is embedded as `Nat`, reduced
modulo `2^32` wherever the program writes it, and the `unsigned -> int`
round trip of `position()` is embedded explicitly (`toInt32`).  Audio
samples are C `float` in the source, but the engine only stores, copies
and zero-fills them - it never computes with them - so any value type with
a distinguished zero embeds them faithfully; we use `Int`.
-/

/-- Embeds `typedef int TapeTime` (tapebuffer.h line 16). -/
abbrev TapeTime := Int

/-- Embeds a sample value (`float` in the source: only moved or zeroed, never
computed with). -/
abbrev Sample := Int

/-- Embeds `Section<TapeTime>` / `TapeSlice` (tapebuffer.h line 23): a
half-open interval `[in, out)` of tape time.  The interval primitive itself
is an external collaborator specified at its interface (two fields `in` and
`out`). -/
structure TapeSlice where
  «in» : Int
  out : Int
deriving DecidableEq

/-- Embeds the comparator `CompareTapeSlice` (tapebuffer.h line 26): slices
are ordered by start time only, `e1.in < e2.in`. -/
def CompareTapeSlice (e1 e2 : TapeSlice) : Prop := e1.«in» < e2.«in»

instance : DecidableRel CompareTapeSlice :=
  fun e1 e2 => inferInstanceAs (Decidable (e1.«in» < e2.«in»))

/-- Embeds `TapeSliceSet` (tapebuffer.h lines 29-49): the per-track interval
index.  The backing container `std::set<TapeSlice, CompareTapeSlice>` is
represented by its list of elements in comparator order; `changed` is the
dirty flag of line 32. -/
structure TapeSliceSet where
  slices : List TapeSlice
  changed : Bool
deriving DecidableEq

/-- The state of a default-constructed `TapeSliceSet()`: empty set, clean flag. -/
def initSliceSet : TapeSliceSet := { slices := [], changed := false }

namespace RingBuffer

/-- Embeds `RingBuffer::SIZE = 262144` (tapebuffer.h line 82). -/
def SIZE : Nat := 262144

/-- Embeds `RingBuffer::wrapIdx` (tapebuffer.h lines 94-96):
`return ((index %= SIZE) < 0) ? SIZE + index : index;`.
`index` has type `int` and `SIZE` has type `const uint`, so in `index %= SIZE`
the left operand is converted to `unsigned int` (value taken modulo `2^32`)
before the remainder is computed; the embedding makes that conversion
explicit.  The result is converted back to `int` for the `< 0` test (it can
never be negative after the unsigned remainder) and finally to `uint`. -/
def wrapIdx (index : Int) : Nat :=
  let r : Int := (index % (4294967296 : Int)) % (SIZE : Int)
  if r < 0 then (SIZE + r).toNat else r.toNat

end RingBuffer

/-! ## Interval index operations

The bodies of `TapeSliceSet::addSlice` / `erase` / `cut` / `glue` and the
query helpers are declared in the header (lines 34-43) but implemented in
the missing `.cpp` file; they are modelled from the specification, section
4.1 "Interval Index (Slice Set)". -/

/-- Overlap-or-touch for half-open intervals: `[a.in, a.out)` and
`[b.in, b.out)` intersect or are adjacent.  This is the merge condition of
`addSlice` ("any existing slice that overlaps or is adjacent to it is merged
into one Slice spanning the union"). -/
def touches (a b : TapeSlice) : Prop := a.«in» ≤ b.out ∧ b.«in» ≤ a.out

instance (a b : TapeSlice) : Decidable (touches a b) :=
  inferInstanceAs (Decidable (_ ∧ _))

/-- Strict overlap for half-open intervals: the two slices share at least one
tape frame. -/
def overlaps (a b : TapeSlice) : Prop := a.«in» < b.out ∧ b.«in» < a.out

instance (a b : TapeSlice) : Decidable (overlaps a b) :=
  inferInstanceAs (Decidable (_ ∧ _))

/-- Modelled from the spec: the merging insertion behind
`TapeSliceSet::addSlice` (missing `.cpp`), walking the comparator-ordered
element list.  A stored slice wholly before the incoming one is kept; when
the rest of the list is wholly after it the incoming slice is placed; any
stored slice that overlaps or is adjacent to the incoming one is merged into
a single slice spanning the union, which is then inserted in its stead. -/
def addSliceList (s : TapeSlice) : List TapeSlice → List TapeSlice
  | [] => [s]
  | t :: ts =>
    if t.out < s.«in» then t :: addSliceList s ts
    else if s.out < t.«in» then s :: t :: ts
    else addSliceList ⟨min s.«in» t.«in», max s.out t.out⟩ ts

/-- Modelled from the spec: the slice splitting behind `TapeSliceSet::cut`
(missing `.cpp`): a stored slice `[a,b)` with `a < time < b` is replaced in
place by `[a,time)` and `[time,b)`; every other slice is kept. -/
def cutList (time : Int) : List TapeSlice → List TapeSlice
  | [] => []
  | s :: rest =>
    (if s.«in» < time ∧ time < s.out then [⟨s.«in», time⟩, ⟨time, s.out⟩] else [s])
      ++ cutList time rest

namespace TapeSliceSet

/-- Modelled from the spec: `addSlice(slice)` inserts `slice`, merging any
stored slice that overlaps or is adjacent to it, and sets the dirty flag. -/
def addSlice (ts : TapeSliceSet) (slice : TapeSlice) : TapeSliceSet :=
  { slices := addSliceList slice ts.slices, changed := true }

/-- Modelled from the spec: `erase(slice)` removes exactly the given slice if
present, and is a no-op otherwise; the dirty flag records whether membership
changed. -/
def erase (ts : TapeSliceSet) (slice : TapeSlice) : TapeSliceSet :=
  { slices := ts.slices.filter (fun x => decide (x ≠ slice)),
    changed := ts.changed || ts.slices.any (fun x => decide (x = slice)) }

/-- Modelled from the spec: `cut(time)` splits the slice strictly containing
`time` into two, is a no-op otherwise, and sets the dirty flag when a split
happened. -/
def cut (ts : TapeSliceSet) (time : Int) : TapeSliceSet :=
  { slices := cutList time ts.slices,
    changed := ts.changed
      || ts.slices.any (fun s => decide (s.«in» < time ∧ time < s.out)) }

/-- Modelled from the spec: `glue(s1, s2)` removes both given slices and
inserts a single slice spanning from the earlier start to the later end;
the insertion goes through `addSlice`'s merge logic, the only insertion
path of the index ("attempted insertion that would create a contradictory
overlap despite merge logic", spec section 7). -/
def glue (ts : TapeSliceSet) (s1 s2 : TapeSlice) : TapeSliceSet :=
  ((ts.erase s1).erase s2).addSlice
    ⟨min s1.«in» s2.«in», max s1.out s2.out⟩

/-- Modelled from the spec: `inSlice(time)` is true iff some stored slice
`[in, out)` contains `time`. -/
def inSlice (ts : TapeSliceSet) (time : Int) : Bool :=
  ts.slices.any (fun s => decide (s.«in» ≤ time ∧ time < s.out))

/-- Modelled from the spec: `current(time)` returns the slice containing
`time`, or the sentinel empty slice `{-1, -2}` (the header's "no slice"
value, line 72) if none. -/
def current (ts : TapeSliceSet) (time : Int) : TapeSlice :=
  (ts.slices.find? (fun s => decide (s.«in» ≤ time ∧ time < s.out))).getD ⟨-1, -2⟩

/-- Modelled from the spec: `slicesIn(area)` returns the stored slices that
intersect the half-open query interval `area`, in comparator order. -/
def slicesIn (ts : TapeSliceSet) (area : TapeSlice) : List TapeSlice :=
  ts.slices.filter (fun s => decide (s.«in» < area.out ∧ area.«in» < s.out))

end TapeSliceSet

/-- Embeds `std::set<TapeSlice, CompareTapeSlice>::insert` on the
comparator-ordered element list: the element is placed at its comparator
position, except that insertion fails (the set is unchanged) when an
equivalent element - one with the same start time, since `CompareTapeSlice`
compares `in` only - is already present. -/
def setInsert (s : TapeSlice) : List TapeSlice → List TapeSlice
  | [] => [s]
  | t :: ts =>
    if CompareTapeSlice s t then s :: t :: ts
    else if CompareTapeSlice t s then t :: setInsert s ts
    else t :: ts

/-- The interval-index invariant maintained by the operations, on the
comparator-ordered element list: earlier slices end no later than later
slices begin (no two slices overlap), and every stored slice is proper
(`in < out`; improper slices are the "no slice" sentinels and are never
stored). -/
def SliceInv (l : List TapeSlice) : Prop :=
  l.Pairwise (fun a b => a.out ≤ b.«in») ∧ ∀ s ∈ l, s.«in» < s.out

/-- The strict form of `SliceInv`: consecutive slices do not even touch.
`addSlice` establishes it, but `cut` deliberately breaks it (its two pieces
are adjacent). -/
def SliceInvS (l : List TapeSlice) : Prop :=
  l.Pairwise (fun a b => a.out < b.«in») ∧ ∀ s ∈ l, s.«in» < s.out

instance (l : List TapeSlice) : Decidable (SliceInv l) :=
  inferInstanceAs (Decidable (_ ∧ _))

instance (l : List TapeSlice) : Decidable (SliceInvS l) :=
  inferInstanceAs (Decidable (_ ∧ _))

/-- The tape slice sets reachable from the empty set by the four mutating
operations.  `addSlice` is invoked on proper slices (a slice with
`in >= out` is the "no slice" sentinel, never a recorded region), and
`glue`'s caller guarantees its arguments are distinct members (spec section
4.1). -/
inductive Reachable : TapeSliceSet → Prop where
  | empty : Reachable initSliceSet
  | addSlice {ts : TapeSliceSet} {s : TapeSlice} :
      Reachable ts → s.«in» < s.out → Reachable (ts.addSlice s)
  | erase {ts : TapeSliceSet} {s : TapeSlice} :
      Reachable ts → Reachable (ts.erase s)
  | cut {ts : TapeSliceSet} {t : Int} :
      Reachable ts → Reachable (ts.cut t)
  | glue {ts : TapeSliceSet} {s1 s2 : TapeSlice} :
      Reachable ts → s1 ∈ ts.slices → s2 ∈ ts.slices → s1 ≠ s2 →
      Reachable (ts.glue s1 s2)

/-- Reachability by `addSlice`, `erase` and `glue` alone (no `cut`). -/
inductive ReachableNoCut : TapeSliceSet → Prop where
  | empty : ReachableNoCut initSliceSet
  | addSlice {ts : TapeSliceSet} {s : TapeSlice} :
      ReachableNoCut ts → s.«in» < s.out → ReachableNoCut (ts.addSlice s)
  | erase {ts : TapeSliceSet} {s : TapeSlice} :
      ReachableNoCut ts → ReachableNoCut (ts.erase s)
  | glue {ts : TapeSliceSet} {s1 s2 : TapeSlice} :
      ReachableNoCut ts → s1 ∈ ts.slices → s2 ∈ ts.slices → s1 ≠ s2 →
      ReachableNoCut (ts.glue s1 s2)

/-! ## Ring buffer, facade state and operations

The facade operations declared in the header (`readFW`, `readBW`, `writeFW`,
`goTo`, `lift`, `drop`) are implemented in the missing `.cpp` file and
modelled from the specification, sections 4.2 and 4.4.  The spec fixes the
anchor relation between buffer space and tape space: `posAt0` is the
absolute tape position of buffer slot `0`, and the playhead slot `playIdx`
is the slot of `playPoint`; the embedding therefore derives slots from
absolute positions through `slotOf`. -/

/-- Embeds `nTracks = 4` (tapebuffer.h line 102). -/
abbrev nTracks : Nat := 4

/-- An audio frame: one sample per track.  The frame type itself is an
external collaborator with default-silence semantics. -/
abbrev AudioFrame := Fin nTracks → Sample

/-- Embeds the `clipboard` struct (tapebuffer.h lines 69-77): a staged
sample buffer with its source and destination; a `fromSlice` with
`in > out` (the default `{-1, -2}`) is the sentinel for "empty clipboard". -/
structure Clipboard where
  data : List Sample
  fromTrack : Nat
  fromSlice : TapeSlice
  toTrack : Nat
  toTime : Int

/-- The default-constructed clipboard (member initializers, lines 71-74). -/
def initClipboard : Clipboard :=
  { data := [], fromTrack := 0, fromSlice := ⟨-1, -2⟩, toTrack := 0,
    toTime := -1 }

/-- The facade state of `TapeBuffer`: `playPoint` (an `atomic_uint`, line 54,
stored modulo `2^32`), the ring buffer of lines 81-98 (`buf` indexed by
buffer slot; `lengthFW`/`lengthBW`, the counts of valid frames ahead of and
behind the playhead; `posAt0`, anchoring slot `0` to an absolute tape
position), the four per-track slice sets (line 100), the clipboard, the
`newCuts` flag (line 61), and the running underrun count that the spec
requires reads to record (section 7). -/
structure TapeState where
  playPoint : Nat
  buf : Nat → AudioFrame
  lengthFW : Nat
  lengthBW : Nat
  posAt0 : Nat
  trackSlices : Fin nTracks → TapeSliceSet
  clipboard : Clipboard
  newCuts : Bool
  underruns : Nat

/-- The state of a default-constructed `TapeBuffer` before any operation:
playhead at `0`, silent buffer, no valid frames, empty slice sets, empty
clipboard. -/
def initState : TapeState :=
  { playPoint := 0, buf := fun _ => fun _ => 0, lengthFW := 0, lengthBW := 0,
    posAt0 := 0, trackSlices := fun _ => initSliceSet,
    clipboard := initClipboard, newCuts := false, underruns := 0 }

/-- `2^32`, the modulus of the `unsigned int` fields. -/
def UINT_MOD : Nat := 4294967296

/-- Unsigned 32-bit addition, as performed on `playPoint` when the playhead
moves forward. -/
def uintAdd (a b : Nat) : Nat := (a + b) % UINT_MOD

/-- Unsigned 32-bit subtraction, as performed on `playPoint` when the
playhead moves backward. -/
def uintSub (a b : Nat) : Nat := (a + (UINT_MOD - b % UINT_MOD)) % UINT_MOD

/-- The `unsigned int -> int` conversion performed when `position()`
(tapebuffer.h lines 156-158) returns the `atomic_uint playPoint` as the
signed `TapeTime`: the two's complement reading of the 32-bit value. -/
def toInt32 (u : Nat) : Int :=
  if u < 2147483648 then (u : Int) else (u : Int) - (UINT_MOD : Int)

/-- The buffer slot holding absolute tape position `p`, through the anchor
`posAt0` and `wrapIdx`; the playhead slot `playIdx` is
`slotOf posAt0 playPoint`. -/
def slotOf (posAt0 : Nat) (p : Int) : Nat :=
  RingBuffer.wrapIdx (p - (posAt0 : Int))

/-- The buffer's currently addressable window: the `SIZE` consecutive
absolute positions starting at the anchor `posAt0` (spec section 4.2: writes
outside it are refused and counted). -/
def inWindow (posAt0 : Nat) (p : Int) : Prop :=
  (posAt0 : Int) ≤ p ∧ p < (posAt0 : Int) + RingBuffer.SIZE

instance (posAt0 : Nat) (p : Int) : Decidable (inWindow posAt0 p) := by
  unfold inWindow; exact inferInstance

/-- Modelled from the spec: the sample `readFW` delivers for offset `j`
ahead of the playhead - buffer content while within the valid forward
length, silence beyond it (underrun padding, spec sections 4.2 and 7). -/
def sampleFW (st : TapeState) (track : Fin nTracks) (j : Nat) : Sample :=
  if j < st.lengthFW then
    st.buf (slotOf st.posAt0 ((st.playPoint : Int) + j)) track
  else 0

/-- Modelled from the spec: `readFW(nframes, track)` (tapebuffer.h line 115)
returns `nframes` samples read forward from the playhead - buffer content up
to the valid forward length, then silence - advances `playPoint` by
`nframes` (modulo `2^32`: it is an `unsigned int`), moves the consumed span
from the forward to the backward valid length, records any shortfall in the
underrun count, and never blocks. -/
def readFW (nframes : Nat) (track : Fin nTracks) (st : TapeState) :
    List Sample × TapeState :=
  ((List.range nframes).map (sampleFW st track),
   { st with
      playPoint := uintAdd st.playPoint nframes,
      lengthFW := st.lengthFW - nframes,
      lengthBW := st.lengthBW + nframes,
      underruns := st.underruns + (nframes - st.lengthFW) })

/-- Modelled from the spec: the sample `readBW` delivers for offset `j`
behind the playhead (the first sample read lives at `playPoint - 1`). -/
def sampleBW (st : TapeState) (track : Fin nTracks) (j : Nat) : Sample :=
  if j < st.lengthBW then
    st.buf (slotOf st.posAt0 ((st.playPoint : Int) - 1 - j)) track
  else 0

/-- Modelled from the spec: `readBW(nframes, track)` (tapebuffer.h line
125): as `readFW` but moving backward; the returned data is in read order,
i.e. reversed relative to the tape. -/
def readBW (nframes : Nat) (track : Fin nTracks) (st : TapeState) :
    List Sample × TapeState :=
  ((List.range nframes).map (sampleBW st track),
   { st with
      playPoint := uintSub st.playPoint nframes,
      lengthBW := st.lengthBW - nframes,
      lengthFW := st.lengthFW + nframes,
      underruns := st.underruns + (nframes - st.lengthBW) })

/-- A single-track update of one buffer slot. -/
def updateBuf (buf : Nat → AudioFrame) (slot : Nat) (track : Fin nTracks)
    (v : Sample) : Nat → AudioFrame :=
  fun q =>
    if q = slot then (fun tr => if tr = track then v else buf q tr) else buf q

/-- Modelled from the spec: the write loop of `writeFW` and `drop`, storing
`data[i]` at the slot of absolute position `base + i` for each `i < m`, and
skipping positions outside the addressable window. -/
def writeFrames (posAt0 : Nat) (track : Fin nTracks) (data : List Sample)
    (base : Int) (buf0 : Nat → AudioFrame) : Nat → (Nat → AudioFrame)
  | 0 => buf0
  | m + 1 =>
    let b := writeFrames posAt0 track data base buf0 m
    if inWindow posAt0 (base + m) then
      updateBuf b (slotOf posAt0 (base + m)) track (data.getD m 0)
    else b

/-- Modelled from the spec: `writeFW(data, track, slice)` (tapebuffer.h
lines 128-137): the data is written so that `data.back()` lands at
`playPoint - 1` - the write ends exactly at the playhead, which does not
move.  Frames falling outside the addressable window are not written, and
their count is returned.  A completely successful write makes the written
span valid backward data.  The given slice is extended over the written span
and merged into the track's index with `addSlice` semantics. -/
def writeFW (data : List Sample) (track : Fin nTracks) (slice : TapeSlice)
    (st : TapeState) : Nat × TapeState :=
  let n := data.length
  let base : Int := (st.playPoint : Int) - n
  let unwritten :=
    ((List.range n).filter
      (fun i : Nat => decide (¬ inWindow st.posAt0 (base + (i : Int))))).length
  (unwritten,
   { st with
      buf := writeFrames st.posAt0 track data base st.buf n,
      lengthBW := if unwritten = 0 then max st.lengthBW n else st.lengthBW,
      trackSlices := fun tr =>
        if tr = track then
          (st.trackSlices tr).addSlice
            ⟨min slice.«in» base, max slice.out (st.playPoint : Int)⟩
        else st.trackSlices tr })

/-- Modelled from the spec: `goTo(tapePos)` (tapebuffer.h line 154) jumps
the playhead to the absolute tape time `tapePos`, stored modulo `2^32` into
the `atomic_uint playPoint`.  A jump within the currently valid window
shifts the valid lengths with the playhead; a jump outside it invalidates
both lengths and re-anchors `posAt0` so the window brackets the new
position, leaving the streaming thread to reload around it. -/
def goTo (st : TapeState) (tapePos : Int) : TapeState :=
  let pp := (tapePos % (UINT_MOD : Int)).toNat
  if (st.playPoint : Int) - st.lengthBW ≤ tapePos
      ∧ tapePos ≤ (st.playPoint : Int) + st.lengthFW then
    let d : Int := tapePos - (st.playPoint : Int)
    { st with
        playPoint := pp,
        lengthFW := ((st.lengthFW : Int) - d).toNat,
        lengthBW := ((st.lengthBW : Int) + d).toNat }
  else
    { st with
        playPoint := pp, lengthFW := 0, lengthBW := 0,
        posAt0 := uintSub pp (RingBuffer.SIZE / 2) }

/-- Embeds `position()` (tapebuffer.h lines 156-158): the `atomic_uint
playPoint` converted to the signed `TapeTime`. -/
def position (st : TapeState) : Int := toInt32 st.playPoint

/-- The length in frames of a proper slice. -/
def sliceLen (s : TapeSlice) : Nat := (s.out - s.«in»).toNat

/-- The samples of track `track` stored in the buffer over the span of
slice `s`. -/
def regionSamples (st : TapeState) (track : Fin nTracks) (s : TapeSlice) :
    List Sample :=
  (List.range (sliceLen s)).map
    (fun j => st.buf (slotOf st.posAt0 (s.«in» + j)) track)

/-- Blanks (zeroes) track `track` of every buffer slot backing slice `s`. -/
def blankRegion (st : TapeState) (track : Fin nTracks) (s : TapeSlice) :
    Nat → AudioFrame :=
  fun q tr =>
    if tr = track
        ∧ (List.range (sliceLen s)).any
            (fun j => decide (slotOf st.posAt0 (s.«in» + j) = q)) = true then 0
    else st.buf q tr

/-- Modelled from the spec: `lift(track)` (tapebuffer.h line 160): the slice
at the current playhead is looked up with `current`; when there is none
(`current` returns the sentinel, whose `in` exceeds its `out`) the call
returns without effect.  Otherwise the slice's audio is staged into the
clipboard, the slice is erased from the track's index, and its region of
the buffer is blanked. -/
def lift (track : Fin nTracks) (st : TapeState) : TapeState :=
  let pos := toInt32 st.playPoint
  let ts := st.trackSlices track
  let s := ts.current pos
  if s.«in» > s.out then st
  else
    { st with
        trackSlices := fun tr =>
          if tr = track then ts.erase s else st.trackSlices tr,
        buf := blankRegion st track s,
        clipboard :=
          { data := regionSamples st track s, fromTrack := track,
            fromSlice := s, toTrack := track, toTime := pos } }

/-- Modelled from the spec: `drop(track)` (tapebuffer.h line 161): when the
clipboard is empty (its source slice is the sentinel with `in > out`) the
call returns without effect.  Otherwise the staged samples are written at
the current playhead, a slice covering the pasted span is added with
`addSlice` semantics, and the clipboard is cleared. -/
def drop (track : Fin nTracks) (st : TapeState) : TapeState :=
  let cb := st.clipboard
  if cb.fromSlice.«in» > cb.fromSlice.out then st
  else
    let pos := toInt32 st.playPoint
    let n := cb.data.length
    { st with
        buf := writeFrames st.posAt0 track cb.data pos st.buf n,
        trackSlices := fun tr =>
          if tr = track then (st.trackSlices tr).addSlice ⟨pos, pos + n⟩
          else st.trackSlices tr,
        clipboard := initClipboard }

/-- A small concrete state used by witnesses: the fresh tape with the
playhead moved to frame 4. -/
def demoState : TapeState := { initState with playPoint := 4 }

/-! ## Theorems: the claims and their supporting lemmas -/

/-- Claim C2: `RingBuffer::wrapIdx(i)` equals the mathematical value
`((i % SIZE) + SIZE) % SIZE` (with `%` the Euclidean remainder, which that
expression computes for either sign convention of the inner `%`) and lies in
`[0, SIZE)`, with `SIZE = 262144 = 2^18`; in particular negative raw indices
map into the valid range.  The unsigned promotion in `index %= SIZE` is
harmless precisely because `2^18` divides `2^32`. -/
theorem wrapIdx_spec (i : Int) :
    (RingBuffer.wrapIdx i : Int)
      = ((i % (RingBuffer.SIZE : Int)) + RingBuffer.SIZE) % RingBuffer.SIZE
    ∧ RingBuffer.wrapIdx i < RingBuffer.SIZE := by
  have hdvd : ((262144 : Int)) ∣ (4294967296 : Int) := ⟨16384, by norm_num⟩
  unfold RingBuffer.wrapIdx
  simp only [RingBuffer.SIZE, Nat.cast_ofNat, Int.emod_emod_of_dvd i hdvd]
  rw [if_neg (by omega)]
  constructor <;> omega

/-! ## Preservation of the interval-index invariant -/

/-- Every slice produced by a merging insertion starts no earlier than a
common lower bound of the inserted slice and the stored slices. -/
lemma addSliceList_in_ge {c : Int} {s : TapeSlice} {l : List TapeSlice}
    (hs : c ≤ s.«in») (hl : ∀ t ∈ l, c ≤ t.«in») :
    ∀ u ∈ addSliceList s l, c ≤ u.«in» := by
  induction l generalizing s with
  | nil =>
    intro u hu
    simp only [addSliceList, List.mem_singleton] at hu
    subst hu; exact hs
  | cons t ts ih =>
    intro u hu
    simp only [addSliceList] at hu
    split_ifs at hu with h1 h2
    · rcases List.mem_cons.mp hu with h | h
      · subst h; exact hl u (List.mem_cons_self _ _)
      · exact ih hs (fun v hv => hl v (List.mem_cons_of_mem t hv)) u h
    · rcases List.mem_cons.mp hu with h | h
      · subst h; exact hs
      · exact hl u h
    · exact ih (le_min hs (hl t (List.mem_cons_self t ts)))
        (fun v hv => hl v (List.mem_cons_of_mem t hv)) u hu

/-- Strict version of `addSliceList_in_ge`. -/
lemma addSliceList_in_gt {c : Int} {s : TapeSlice} {l : List TapeSlice}
    (hs : c < s.«in») (hl : ∀ t ∈ l, c < t.«in») :
    ∀ u ∈ addSliceList s l, c < u.«in» := by
  induction l generalizing s with
  | nil =>
    intro u hu
    simp only [addSliceList, List.mem_singleton] at hu
    subst hu; exact hs
  | cons t ts ih =>
    intro u hu
    simp only [addSliceList] at hu
    split_ifs at hu with h1 h2
    · rcases List.mem_cons.mp hu with h | h
      · subst h; exact hl u (List.mem_cons_self _ _)
      · exact ih hs (fun v hv => hl v (List.mem_cons_of_mem t hv)) u h
    · rcases List.mem_cons.mp hu with h | h
      · subst h; exact hs
      · exact hl u h
    · exact ih (lt_min hs (hl t (List.mem_cons_self t ts)))
        (fun v hv => hl v (List.mem_cons_of_mem t hv)) u hu

/-- The merging insertion of `addSlice` preserves the interval-index
invariant, for any proper inserted slice. -/
lemma SliceInv_addSliceList {s : TapeSlice} {l : List TapeSlice}
    (hs : s.«in» < s.out) (h : SliceInv l) : SliceInv (addSliceList s l) := by
  induction l generalizing s with
  | nil =>
    refine ⟨List.pairwise_singleton _ _, ?_⟩
    intro u hu
    simp only [addSliceList, List.mem_singleton] at hu
    subst hu; exact hs
  | cons t ts ih =>
    obtain ⟨hpw, hpr⟩ := h
    rw [List.pairwise_cons] at hpw
    obtain ⟨hhead, htail⟩ := hpw
    have ht : t.«in» < t.out := hpr t (List.mem_cons_self t ts)
    have hprts : ∀ u ∈ ts, u.«in» < u.out :=
      fun u hu => hpr u (List.mem_cons_of_mem t hu)
    simp only [addSliceList]
    split_ifs with h1 h2
    · have hrec := ih hs ⟨htail, hprts⟩
      refine ⟨List.pairwise_cons.mpr ⟨?_, hrec.1⟩, ?_⟩
      · exact addSliceList_in_ge (le_of_lt h1) hhead
      · intro u hu
        rcases List.mem_cons.mp hu with h | h
        · subst h; exact ht
        · exact hrec.2 u h
    · refine ⟨List.pairwise_cons.mpr ⟨?_, List.pairwise_cons.mpr ⟨hhead, htail⟩⟩, ?_⟩
      · intro u hu
        rcases List.mem_cons.mp hu with h | h
        · subst h; exact le_of_lt h2
        · exact le_of_lt (lt_of_lt_of_le (lt_trans h2 ht) (hhead u h))
      · intro u hu
        rcases List.mem_cons.mp hu with h | h
        · subst h; exact hs
        · rcases List.mem_cons.mp h with h | h
          · subst h; exact ht
          · exact hprts u h
    · refine ih ?_ ⟨htail, hprts⟩
      exact lt_of_le_of_lt (min_le_left _ _) (lt_of_lt_of_le hs (le_max_left _ _))

/-- The merging insertion of `addSlice` preserves the strict invariant. -/
lemma SliceInvS_addSliceList {s : TapeSlice} {l : List TapeSlice}
    (hs : s.«in» < s.out) (h : SliceInvS l) : SliceInvS (addSliceList s l) := by
  induction l generalizing s with
  | nil =>
    refine ⟨List.pairwise_singleton _ _, ?_⟩
    intro u hu
    simp only [addSliceList, List.mem_singleton] at hu
    subst hu; exact hs
  | cons t ts ih =>
    obtain ⟨hpw, hpr⟩ := h
    rw [List.pairwise_cons] at hpw
    obtain ⟨hhead, htail⟩ := hpw
    have ht : t.«in» < t.out := hpr t (List.mem_cons_self t ts)
    have hprts : ∀ u ∈ ts, u.«in» < u.out :=
      fun u hu => hpr u (List.mem_cons_of_mem t hu)
    simp only [addSliceList]
    split_ifs with h1 h2
    · have hrec := ih hs ⟨htail, hprts⟩
      refine ⟨List.pairwise_cons.mpr ⟨?_, hrec.1⟩, ?_⟩
      · exact addSliceList_in_gt h1 hhead
      · intro u hu
        rcases List.mem_cons.mp hu with h | h
        · subst h; exact ht
        · exact hrec.2 u h
    · refine ⟨List.pairwise_cons.mpr ⟨?_, List.pairwise_cons.mpr ⟨hhead, htail⟩⟩, ?_⟩
      · intro u hu
        rcases List.mem_cons.mp hu with h | h
        · subst h; exact h2
        · exact lt_trans (lt_trans h2 ht) (hhead u h)
      · intro u hu
        rcases List.mem_cons.mp hu with h | h
        · subst h; exact hs
        · rcases List.mem_cons.mp h with h | h
          · subst h; exact ht
          · exact hprts u h
    · refine ih ?_ ⟨htail, hprts⟩
      exact lt_of_le_of_lt (min_le_left _ _) (lt_of_lt_of_le hs (le_max_left _ _))

/-- Erasing (filtering) preserves the interval-index invariant. -/
lemma SliceInv_filter {l : List TapeSlice} (p : TapeSlice → Bool) (h : SliceInv l) :
    SliceInv (l.filter p) :=
  ⟨h.1.sublist (List.filter_sublist l), fun s hs => h.2 s (List.mem_of_mem_filter hs)⟩

/-- Erasing (filtering) preserves the strict invariant. -/
lemma SliceInvS_filter {l : List TapeSlice} (p : TapeSlice → Bool) (h : SliceInvS l) :
    SliceInvS (l.filter p) :=
  ⟨h.1.sublist (List.filter_sublist l), fun s hs => h.2 s (List.mem_of_mem_filter hs)⟩

/-- Every slice produced by a cut starts no earlier than a common lower bound
of the stored slices. -/
lemma cutList_in_ge {c : Int} {time : Int} {l : List TapeSlice}
    (hl : ∀ t ∈ l, c ≤ t.«in») : ∀ u ∈ cutList time l, c ≤ u.«in» := by
  induction l with
  | nil => intro u hu; simp [cutList] at hu
  | cons s rest ih =>
    intro u hu
    have hcs : c ≤ s.«in» := hl s (List.mem_cons_self s rest)
    simp only [cutList, List.mem_append] at hu
    rcases hu with hu | hu
    · split_ifs at hu with hsp
      · rcases List.mem_cons.mp hu with h | h
        · subst h; exact hcs
        · rcases List.mem_cons.mp h with h | h
          · subst h; exact le_of_lt (lt_of_le_of_lt hcs hsp.1)
          · simp at h
      · simp only [List.mem_singleton] at hu
        subst hu; exact hcs
    · exact ih (fun t ht => hl t (List.mem_cons_of_mem s ht)) u hu

/-- Cutting preserves the interval-index invariant (the two pieces of a split
slice touch, which the weak invariant allows). -/
lemma SliceInv_cutList {time : Int} {l : List TapeSlice} (h : SliceInv l) :
    SliceInv (cutList time l) := by
  induction l with
  | nil => exact ⟨List.Pairwise.nil, by simp [cutList]⟩
  | cons s rest ih =>
    obtain ⟨hpw, hpr⟩ := h
    rw [List.pairwise_cons] at hpw
    obtain ⟨hhead, htail⟩ := hpw
    have hps : s.«in» < s.out := hpr s (List.mem_cons_self s rest)
    have hrec := ih ⟨htail, fun u hu => hpr u (List.mem_cons_of_mem s hu)⟩
    have hD : ∀ y ∈ cutList time rest, s.out ≤ y.«in» := cutList_in_ge hhead
    simp only [cutList]
    by_cases hsp : s.«in» < time ∧ time < s.out
    · rw [if_pos hsp]
      refine ⟨List.pairwise_append.mpr ⟨?_, hrec.1, ?_⟩, ?_⟩
      · exact List.pairwise_cons.mpr
          ⟨by intro u hu; simp only [List.mem_singleton] at hu; subst hu; exact le_refl _,
           List.pairwise_singleton _ _⟩
      · intro x hx y hy
        have hxle : x.out ≤ s.out := by
          rcases List.mem_cons.mp hx with h | h
          · subst h; exact le_of_lt hsp.2
          · simp only [List.mem_singleton] at h; subst h; exact le_refl _
        exact le_trans hxle (hD y hy)
      · intro u hu
        rcases List.mem_append.mp hu with h | h
        · rcases List.mem_cons.mp h with h | h
          · subst h; exact hsp.1
          · simp only [List.mem_singleton] at h; subst h; exact hsp.2
        · exact hrec.2 u h
    · rw [if_neg hsp]
      refine ⟨List.pairwise_append.mpr ⟨List.pairwise_singleton _ _, hrec.1, ?_⟩, ?_⟩
      · intro x hx y hy
        simp only [List.mem_singleton] at hx
        subst hx
        exact hD y hy
      · intro u hu
        rcases List.mem_append.mp hu with h | h
        · simp only [List.mem_singleton] at h; subst h; exact hps
        · exact hrec.2 u h

/-- Every reachable tape slice set satisfies the interval-index invariant:
its slices are in comparator order, pairwise non-overlapping and proper. -/
lemma reachable_sliceInv {ts : TapeSliceSet} (h : Reachable ts) :
    SliceInv ts.slices := by
  induction h with
  | empty => exact ⟨List.Pairwise.nil, by simp [initSliceSet]⟩
  | addSlice hr hp ih =>
    simpa only [TapeSliceSet.addSlice] using SliceInv_addSliceList hp ih
  | erase hr ih =>
    simpa only [TapeSliceSet.erase] using SliceInv_filter _ ih
  | cut hr ih =>
    simpa only [TapeSliceSet.cut] using SliceInv_cutList ih
  | glue hr h1 h2 hne ih =>
    simp only [TapeSliceSet.glue, TapeSliceSet.erase, TapeSliceSet.addSlice]
    refine SliceInv_addSliceList ?_ (SliceInv_filter _ (SliceInv_filter _ ih))
    have p1 := ih.2 _ h1
    exact lt_of_le_of_lt (min_le_left _ _) (lt_of_lt_of_le p1 (le_max_left _ _))

/-- Every tape slice set reachable without `cut` satisfies the strict
invariant: no two slices even touch. -/
lemma reachableNC_sliceInvS {ts : TapeSliceSet} (h : ReachableNoCut ts) :
    SliceInvS ts.slices := by
  induction h with
  | empty => exact ⟨List.Pairwise.nil, by simp [initSliceSet]⟩
  | addSlice hr hp ih =>
    simpa only [TapeSliceSet.addSlice] using SliceInvS_addSliceList hp ih
  | erase hr ih =>
    simpa only [TapeSliceSet.erase] using SliceInvS_filter _ ih
  | glue hr h1 h2 hne ih =>
    simp only [TapeSliceSet.glue, TapeSliceSet.erase, TapeSliceSet.addSlice]
    refine SliceInvS_addSliceList ?_ (SliceInvS_filter _ (SliceInvS_filter _ ih))
    have p1 := ih.2 _ h1
    exact lt_of_le_of_lt (min_le_left _ _) (lt_of_lt_of_le p1 (le_max_left _ _))

/-- Claim C1, counterexample: the claim "no two stored slices overlap or
touch, for every set reachable by `addSlice`, `erase`, `cut` and `glue`" is
false as stated: cutting `[10,20)` at `15` yields the reachable set
`{[10,15), [15,20)}` whose two slices touch at `15`. -/
theorem cut_adjacent_touching :
    Reachable ((initSliceSet.addSlice ⟨10, 20⟩).cut 15)
    ∧ ¬ (((initSliceSet.addSlice ⟨10, 20⟩).cut 15).slices.Pairwise
          (fun a b => ¬ touches a b)) :=
  ⟨Reachable.cut (Reachable.addSlice Reachable.empty (by decide)), by decide⟩

/-- Claim C1 (amended): for every `TapeSliceSet` reachable from the empty set
by `addSlice`, `erase`, `cut` and `glue`, no two stored slices overlap;
freedom from touching (adjacent) slices additionally holds for every set
reachable without `cut` - `addSlice` merges overlapping or touching slices
into one on insertion, but `cut` deliberately leaves two adjacent touching
slices. -/
theorem reachable_no_overlap (ts : TapeSliceSet) :
    (Reachable ts → ts.slices.Pairwise (fun a b => ¬ overlaps a b))
    ∧ (ReachableNoCut ts → ts.slices.Pairwise (fun a b => ¬ touches a b)) := by
  constructor
  · intro h
    refine (reachable_sliceInv h).1.imp ?_
    intro a b hab hov
    exact absurd hov.2 (not_lt.mpr hab)
  · intro h
    refine (reachableNC_sliceInvS h).1.imp ?_
    intro a b hab htc
    exact absurd htc.2 (not_le.mpr hab)

/-- Witness for `reachable_no_overlap` at concrete reachable states (one
reached through a `cut`, one without). -/
theorem reachable_no_overlap_witness :
    ((initSliceSet.addSlice ⟨10, 20⟩).cut 15).slices.Pairwise
        (fun a b => ¬ overlaps a b)
    ∧ (initSliceSet.addSlice ⟨10, 20⟩).slices.Pairwise
        (fun a b => ¬ touches a b) :=
  ⟨(reachable_no_overlap _).1
      (Reachable.cut (Reachable.addSlice Reachable.empty (by decide))),
   (reachable_no_overlap _).2
      (ReachableNoCut.addSlice ReachableNoCut.empty (by decide))⟩

/-! ## The comparator keys the set by start time alone -/

/-- Inserting into a comparator-sorted `std::set` state an element whose
start time is already present leaves the set unchanged. -/
lemma setInsert_of_mem_start {s : TapeSlice} {l : List TapeSlice}
    (hsort : l.Pairwise CompareTapeSlice) (h : ∃ t ∈ l, t.«in» = s.«in») :
    setInsert s l = l := by
  induction l with
  | nil => rcases h with ⟨t, ht, -⟩; simp at ht
  | cons t ts ih =>
    rw [List.pairwise_cons] at hsort
    obtain ⟨hhead, htail⟩ := hsort
    obtain ⟨u, hu, hin⟩ := h
    simp only [setInsert]
    rcases List.mem_cons.mp hu with heq | hmem
    · have hte : u.«in» = t.«in» := by rw [heq]
      have hc1 : ¬ CompareTapeSlice s t := by
        simp only [CompareTapeSlice]; omega
      have hc2 : ¬ CompareTapeSlice t s := by
        simp only [CompareTapeSlice]; omega
      rw [if_neg hc1, if_neg hc2]
    · have hlt : t.«in» < u.«in» := hhead u hmem
      have hc1 : ¬ CompareTapeSlice s t := by
        simp only [CompareTapeSlice]; omega
      have hc2 : CompareTapeSlice t s := by
        simp only [CompareTapeSlice]; omega
      rw [if_neg hc1, if_pos hc2, ih htail ⟨u, hmem, hin⟩]

/-- Claim C10: the slice set is ordered solely by each slice's start time
(comparator `e1.in < e2.in`), so in every reachable `TapeSliceSet` state at
most one stored slice has any given start time; membership in the backing
`std::set` is keyed by `in` alone, so inserting a slice whose start equals an
existing member's start leaves the set unchanged - the two cannot coexist. -/
theorem slice_start_key (ts : TapeSliceSet) (hr : Reachable ts) :
    (∀ s ∈ ts.slices, ∀ t ∈ ts.slices, s.«in» = t.«in» → s = t)
    ∧ ∀ s : TapeSlice, (∃ t ∈ ts.slices, t.«in» = s.«in») →
        setInsert s ts.slices = ts.slices := by
  have hinv := reachable_sliceInv hr
  have hsort : ts.slices.Pairwise CompareTapeSlice := by
    refine hinv.1.imp_of_mem ?_
    intro a b ha hb hab
    have hpa : a.«in» < a.out := hinv.2 a ha
    have hab2 : a.out ≤ b.«in» := hab
    simp only [CompareTapeSlice]
    omega
  constructor
  · intro s hs t ht he
    by_cases hst : s = t
    · exact hst
    · have hpne : ts.slices.Pairwise (fun a b => a.«in» ≠ b.«in») := by
        refine hsort.imp ?_
        intro a b hab
        simp only [CompareTapeSlice] at hab
        show a.«in» ≠ b.«in»
        omega
      have hsym : Symmetric (fun a b : TapeSlice => a.«in» ≠ b.«in») :=
        fun a b hab he2 => hab he2.symm
      exact absurd he (hpne.forall hsym hs ht hst)
  · intro s h
    exact setInsert_of_mem_start hsort h

/-- Witness for `slice_start_key`: in the reachable state `{[10,20)}`,
inserting `[10,25)` - same start, different end - is refused. -/
theorem slice_start_key_witness :
    setInsert ⟨10, 25⟩ (initSliceSet.addSlice ⟨10, 20⟩).slices
      = (initSliceSet.addSlice ⟨10, 20⟩).slices :=
  (slice_start_key _ (Reachable.addSlice Reachable.empty (by decide))).2
    ⟨10, 25⟩ ⟨⟨10, 20⟩, by decide, by decide⟩

/-! ## Behaviour of `cut`, and the `cut`/`glue` round trip -/

/-- Cutting distributes over list append. -/
lemma cutList_append (time : Int) (l1 l2 : List TapeSlice) :
    cutList time (l1 ++ l2) = cutList time l1 ++ cutList time l2 := by
  induction l1 with
  | nil => simp [cutList]
  | cons s rest ih => simp [cutList, ih]

/-- Cutting a list none of whose slices strictly contains the cut time is the
identity. -/
lemma cutList_of_no_split {time : Int} {l : List TapeSlice}
    (h : ∀ s ∈ l, ¬(s.«in» < time ∧ time < s.out)) : cutList time l = l := by
  induction l with
  | nil => rfl
  | cons s rest ih =>
    simp only [cutList]
    rw [if_neg (h s (List.mem_cons_self _ _)),
      ih (fun u hu => h u (List.mem_cons_of_mem s hu))]
    simp

/-- Under the invariant, cutting at a time strictly inside the member `s`
splits exactly `s`, in place, and the stored slices before and after it are
separated from `s`. -/
lemma cut_decomposition {ts : TapeSliceSet} {s : TapeSlice} {time : Int}
    (hinv : SliceInv ts.slices) (hmem : s ∈ ts.slices)
    (h1 : s.«in» < time) (h2 : time < s.out) :
    ∃ l1 l2, ts.slices = l1 ++ s :: l2
      ∧ (ts.cut time).slices = l1 ++ ⟨s.«in», time⟩ :: ⟨time, s.out⟩ :: l2
      ∧ (∀ x ∈ l1, x.out ≤ s.«in») ∧ (∀ y ∈ l2, s.out ≤ y.«in») := by
  obtain ⟨l1, l2, hdec⟩ := List.append_of_mem hmem
  have hpw := hinv.1
  rw [hdec, List.pairwise_append] at hpw
  obtain ⟨hpw1, hpw2, hcross⟩ := hpw
  rw [List.pairwise_cons] at hpw2
  have hbefore : ∀ x ∈ l1, x.out ≤ s.«in» :=
    fun x hx => hcross x hx s (List.mem_cons_self _ _)
  have hafter : ∀ y ∈ l2, s.out ≤ y.«in» := hpw2.1
  refine ⟨l1, l2, hdec, ?_, hbefore, hafter⟩
  show cutList time ts.slices = _
  rw [hdec, cutList_append]
  rw [cutList_of_no_split (l := l1) (fun x hx => by have := hbefore x hx; omega)]
  simp only [cutList]
  rw [if_pos ⟨h1, h2⟩,
    cutList_of_no_split (l := l2) (fun y hy => by have := hafter y hy; omega)]
  simp

/-- Claim C7: for every `TapeSliceSet` satisfying the interval-index
invariant (which every reachable state does) and every time `t`: if `t` lies
strictly inside a stored slice `[a,b)` then `cut(t)` replaces that slice, in
place, with exactly `[a,t)` and `[t,b)` and sets the dirty flag; if `t` lies
strictly inside no stored slice then `cut(t)` leaves the stored slices
unchanged. -/
theorem cut_spec (ts : TapeSliceSet) (time : TapeTime) (hinv : SliceInv ts.slices) :
    (∀ s ∈ ts.slices, s.«in» < time → time < s.out →
        ∃ l1 l2, ts.slices = l1 ++ s :: l2
          ∧ (ts.cut time).slices = l1 ++ ⟨s.«in», time⟩ :: ⟨time, s.out⟩ :: l2
          ∧ (ts.cut time).changed = true)
    ∧ ((∀ s ∈ ts.slices, ¬(s.«in» < time ∧ time < s.out)) →
        (ts.cut time).slices = ts.slices) := by
  constructor
  · intro s hmem h1 h2
    obtain ⟨l1, l2, hd1, hd2, -, -⟩ := cut_decomposition hinv hmem h1 h2
    refine ⟨l1, l2, hd1, hd2, ?_⟩
    have hany : ts.slices.any (fun s => decide (s.«in» < time ∧ time < s.out)) = true :=
      List.any_eq_true.mpr ⟨s, hmem, decide_eq_true ⟨h1, h2⟩⟩
    show (ts.changed
      || ts.slices.any fun s => decide (s.«in» < time ∧ time < s.out)) = true
    rw [hany, Bool.or_true]
  · intro h
    exact cutList_of_no_split h

/-- Witness for `cut_spec` on the concrete state `{[10,30)}` cut at `20`. -/
theorem cut_spec_witness :
    SliceInv ({ slices := [⟨10, 30⟩], changed := false } : TapeSliceSet).slices
    ∧ ∃ l1 l2,
        ({ slices := [⟨10, 30⟩], changed := false } : TapeSliceSet).slices
          = l1 ++ ⟨10, 30⟩ :: l2
        ∧ (({ slices := [⟨10, 30⟩], changed := false } : TapeSliceSet).cut 20).slices
            = l1 ++ ⟨10, 20⟩ :: ⟨20, 30⟩ :: l2
        ∧ (({ slices := [⟨10, 30⟩], changed := false } : TapeSliceSet).cut 20).changed
            = true :=
  ⟨by decide,
   (cut_spec _ 20 (by decide)).1 ⟨10, 30⟩ (by decide) (by decide) (by decide)⟩

/-- Filtering out an element that is not present is the identity. -/
lemma filter_ne_of_not_mem {a : TapeSlice} {l : List TapeSlice} (h : a ∉ l) :
    l.filter (fun x => decide (x ≠ a)) = l :=
  List.filter_eq_self.mpr
    (fun _ hx => decide_eq_true (fun he => h (he ▸ hx)))

/-- Erasing the two middle elements of a list in which they occur nowhere
else removes exactly them. -/
lemma double_erase_middle {p1 p2 : TapeSlice} {l1 l2 : List TapeSlice}
    (h11 : p1 ∉ l1) (h12 : p2 ∉ l1) (h21 : p1 ∉ l2) (h22 : p2 ∉ l2)
    (hne : p2 ≠ p1) :
    ((l1 ++ p1 :: p2 :: l2).filter (fun x => decide (x ≠ p1))).filter
        (fun x => decide (x ≠ p2)) = l1 ++ l2 := by
  have e1 : (l1 ++ p1 :: p2 :: l2).filter (fun x => decide (x ≠ p1))
      = l1 ++ p2 :: l2 := by
    rw [List.filter_append, filter_ne_of_not_mem h11, List.filter_cons,
      List.filter_cons]
    rw [if_neg (by simp), if_pos (by simp [hne]), filter_ne_of_not_mem h21]
  rw [e1, List.filter_append, filter_ne_of_not_mem h12, List.filter_cons]
  rw [if_neg (by simp), filter_ne_of_not_mem h22]

/-- A merging insertion between two strictly separated halves places the
slice exactly in the middle. -/
lemma addSliceList_middle {s : TapeSlice} {l1 l2 : List TapeSlice}
    (hs : s.«in» < s.out)
    (h1 : ∀ x ∈ l1, x.out < s.«in»)
    (h2 : ∀ y ∈ l2, s.out < y.«in»)
    (hp2 : ∀ y ∈ l2, y.«in» < y.out) :
    addSliceList s (l1 ++ l2) = l1 ++ s :: l2 := by
  induction l1 with
  | nil =>
    cases l2 with
    | nil => simp [addSliceList]
    | cons y l2 =>
      have hy := h2 y (List.mem_cons_self _ _)
      have hpy := hp2 y (List.mem_cons_self _ _)
      have hc1 : ¬ (y.out < s.«in») := by omega
      have hc2 : s.out < y.«in» := hy
      simp only [List.nil_append, addSliceList]
      rw [if_neg hc1, if_pos hc2]
  | cons x l1 ih =>
    have hx := h1 x (List.mem_cons_self _ _)
    simp only [List.cons_append, addSliceList, List.append_eq]
    rw [if_pos hx, ih (fun a ha => h1 a (List.mem_cons_of_mem _ ha))]

/-- Claim C8, counterexample: the claim fails as stated when another stored
slice touches the cut slice.  The state `{[0,10), [10,20)}` is reachable
(`addSlice([0,20))` then `cut(10)`); cutting `[10,20)` at `15` and gluing the
two pieces merges the touching neighbour `[0,10)` as well, yielding
`{[0,20)}`, not the original membership. -/
theorem cut_glue_merges_neighbor :
    Reachable ((initSliceSet.addSlice ⟨0, 20⟩).cut 10)
    ∧ (⟨10, 20⟩ : TapeSlice) ∈ ((initSliceSet.addSlice ⟨0, 20⟩).cut 10).slices
    ∧ ((((initSliceSet.addSlice ⟨0, 20⟩).cut 10).cut 15).glue ⟨10, 15⟩
          ⟨15, 20⟩).slices
        ≠ ((initSliceSet.addSlice ⟨0, 20⟩).cut 10).slices
    ∧ (⟨10, 20⟩ : TapeSlice)
        ∉ ((((initSliceSet.addSlice ⟨0, 20⟩).cut 10).cut 15).glue ⟨10, 15⟩
            ⟨15, 20⟩).slices :=
  ⟨Reachable.cut (Reachable.addSlice Reachable.empty (by decide)),
   by decide, by decide, by decide⟩

/-- Claim C8 (amended): for every stored slice `s = [a,b)` of a set
satisfying the interval-index invariant and every `t` strictly inside it,
provided no other stored slice touches `[a,b)`, `cut(t)` followed by
`glue([a,t), [t,b))` restores exactly the original stored slices (the two
parts are replaced by the single slice `[a,b)`); in particular the concrete
scenario holds: starting empty, `addSlice([10,20))` then `addSlice([20,30))`
yields the single merged slice `[10,30)`, `cut(20)` yields `[10,20)` and
`[20,30)`, and `glue` of those two yields `[10,30)` again. -/
theorem cut_glue_restore (ts : TapeSliceSet) (s : TapeSlice) (t : Int)
    (hinv : SliceInv ts.slices) (hmem : s ∈ ts.slices)
    (h1 : s.«in» < t) (h2 : t < s.out)
    (hsep : ∀ x ∈ ts.slices, x ≠ s → ¬ touches x s) :
    ((ts.cut t).glue ⟨s.«in», t⟩ ⟨t, s.out⟩).slices = ts.slices
    ∧ (initSliceSet.addSlice ⟨10, 20⟩).slices = [⟨10, 20⟩]
    ∧ ((initSliceSet.addSlice ⟨10, 20⟩).addSlice ⟨20, 30⟩).slices = [⟨10, 30⟩]
    ∧ (((initSliceSet.addSlice ⟨10, 20⟩).addSlice ⟨20, 30⟩).cut 20).slices
        = [⟨10, 20⟩, ⟨20, 30⟩]
    ∧ ((((initSliceSet.addSlice ⟨10, 20⟩).addSlice ⟨20, 30⟩).cut 20).glue
          ⟨10, 20⟩ ⟨20, 30⟩).slices = [⟨10, 30⟩] := by
  refine ⟨?_, by decide, by decide, by decide, by decide⟩
  obtain ⟨l1, l2, hd1, hd2, hl1, hl2⟩ := cut_decomposition hinv hmem h1 h2
  have hs' : s.«in» < s.out := lt_trans h1 h2
  have hp1 : ∀ x ∈ l1, x.«in» < x.out :=
    fun x hx => hinv.2 x (hd1 ▸ List.mem_append_left _ hx)
  have hp2 : ∀ y ∈ l2, y.«in» < y.out :=
    fun y hy =>
      hinv.2 y (hd1 ▸ List.mem_append_right _ (List.mem_cons_of_mem _ hy))
  have hl1s : ∀ x ∈ l1, x.out < s.«in» := by
    intro x hx
    have hxm : x ∈ ts.slices := hd1 ▸ List.mem_append_left _ hx
    have hxp := hp1 x hx
    have hxle := hl1 x hx
    by_cases hxs : x = s
    · subst hxs; omega
    · have hnt := hsep x hxm hxs
      simp only [touches] at hnt
      omega
  have hl2s : ∀ y ∈ l2, s.out < y.«in» := by
    intro y hy
    have hym : y ∈ ts.slices :=
      hd1 ▸ List.mem_append_right _ (List.mem_cons_of_mem _ hy)
    have hyp := hp2 y hy
    have hyge := hl2 y hy
    by_cases hys : y = s
    · subst hys; omega
    · have hnt := hsep y hym hys
      simp only [touches] at hnt
      omega
  have hm11 : (⟨s.«in», t⟩ : TapeSlice) ∉ l1 := by
    intro hc; have hx : t < s.«in» := hl1s ⟨s.«in», t⟩ hc; omega
  have hm12 : (⟨t, s.out⟩ : TapeSlice) ∉ l1 := by
    intro hc; have hx : s.out < s.«in» := hl1s ⟨t, s.out⟩ hc; omega
  have hm21 : (⟨s.«in», t⟩ : TapeSlice) ∉ l2 := by
    intro hc; have hx : s.out < s.«in» := hl2s ⟨s.«in», t⟩ hc; omega
  have hm22 : (⟨t, s.out⟩ : TapeSlice) ∉ l2 := by
    intro hc; have hx : s.out < t := hl2s ⟨t, s.out⟩ hc; omega
  have hne21 : (⟨t, s.out⟩ : TapeSlice) ≠ ⟨s.«in», t⟩ := by
    intro he
    have : t = s.«in» := congrArg TapeSlice.«in» he
    omega
  have hspan : (⟨min s.«in» t, max t s.out⟩ : TapeSlice) = ⟨s.«in», s.out⟩ := by
    rw [min_eq_left (le_of_lt h1), max_eq_right (le_of_lt h2)]
  show addSliceList _ (((ts.cut t).slices.filter _).filter _) = ts.slices
  rw [hd2, double_erase_middle hm11 hm12 hm21 hm22 hne21]
  have : addSliceList (⟨s.«in», s.out⟩ : TapeSlice) (l1 ++ l2) = l1 ++ s :: l2 :=
    addSliceList_middle hs' hl1s hl2s hp2
  rw [hd1]
  calc addSliceList (⟨min s.«in» t, max t s.out⟩ : TapeSlice) (l1 ++ l2)
      = addSliceList (⟨s.«in», s.out⟩ : TapeSlice) (l1 ++ l2) := by rw [hspan]
    _ = l1 ++ s :: l2 := this

/-- Witness for `cut_glue_restore`, applied at the concrete scenario state
`{[10,30)}` with `t = 20`. -/
theorem cut_glue_restore_witness :
    ((((initSliceSet.addSlice ⟨10, 20⟩).addSlice ⟨20, 30⟩).cut 20).glue
        ⟨10, 20⟩ ⟨20, 30⟩).slices
      = ((initSliceSet.addSlice ⟨10, 20⟩).addSlice ⟨20, 30⟩).slices :=
  (cut_glue_restore ((initSliceSet.addSlice ⟨10, 20⟩).addSlice ⟨20, 30⟩)
      ⟨10, 30⟩ 20 (by decide) (by decide) (by decide) (by decide)
      (by decide)).1

/-- Claim C3: the playhead position is a signed tape time: `goTo` accepts
any absolute tape time - any value of its C `int` argument, i.e. any
integer in `[-2^31, 2^31)`, negative values included - and `position()`
afterwards returns the playhead as that same signed count of frames, which
in particular may be negative.  (`playPoint` is stored as an `atomic_uint`;
the signed value survives the round trip through the unsigned store and the
conversion back to `int`.) -/
theorem goTo_position_signed (st : TapeState) (pos : Int)
    (h1 : -2147483648 ≤ pos) (h2 : pos < 2147483648) :
    position (goTo st pos) = pos := by
  have hpp : (goTo st pos).playPoint = (pos % ((UINT_MOD : Nat) : Int)).toNat := by
    simp only [goTo]
    split <;> rfl
  show toInt32 (goTo st pos).playPoint = pos
  rw [hpp]
  simp only [toInt32, UINT_MOD]
  split <;> omega

/-- Witness for `goTo_position_signed` at the negative tape time `-5`. -/
theorem goTo_position_signed_witness :
    -2147483648 ≤ (-5 : Int) ∧ (-5 : Int) < 2147483648
    ∧ position (goTo initState (-5)) = -5
    ∧ position (goTo initState (-5)) < 0 :=
  ⟨by norm_num, by norm_num,
   goTo_position_signed initState (-5) (by norm_num) (by norm_num),
   by rw [goTo_position_signed initState (-5) (by norm_num) (by norm_num)]
      norm_num⟩

/-- Claim C4: for every `n` and every starting state (any state with its
`playPoint` a valid 32-bit value, which every reachable state is),
`readFW(n, track)` followed by `readBW(n, track)` returns the playhead to
its original tape time, regardless of whether an underrun occurred: the
motion is unconditional, an underrun only pads the content and bumps the
recorded count. -/
theorem readFW_readBW_roundtrip (st : TapeState) (n : Nat)
    (track : Fin nTracks) (h : st.playPoint < UINT_MOD) :
    ((readBW n track (readFW n track st).2).2).playPoint = st.playPoint := by
  have h2 : st.playPoint < 4294967296 := h
  simp only [readFW, readBW, uintAdd, uintSub, UINT_MOD]
  omega

/-- Witness for `readFW_readBW_roundtrip` on the fresh state, where reading
1000 frames certainly underruns (both valid lengths are `0`). -/
theorem readFW_readBW_roundtrip_witness :
    initState.playPoint < UINT_MOD
    ∧ ((readBW 1000 0 (readFW 1000 0 initState).2).2).playPoint
        = initState.playPoint :=
  ⟨by decide, readFW_readBW_roundtrip initState 1000 0 (by decide)⟩

/-- Claim C6: for every `n`, `readFW(n, track)` returns a vector of exactly
`n` samples and is total (it never blocks): the result is the buffer's
valid forward content for the first `min n lengthFW` offsets followed by
silence (zero samples) for the remainder, and the shortfall `n - lengthFW`
(zero when no underrun occurred) is added to the recorded underrun count
rather than being treated as a fatal error. -/
theorem readFW_underrun_spec (st : TapeState) (n : Nat) (track : Fin nTracks) :
    ((readFW n track st).1).length = n
    ∧ (readFW n track st).1
        = (List.range (min n st.lengthFW)).map
            (fun j : Nat =>
              st.buf (slotOf st.posAt0 ((st.playPoint : Int) + (j : Int))) track)
          ++ List.replicate (n - min n st.lengthFW) 0
    ∧ ((readFW n track st).2).underruns = st.underruns + (n - st.lengthFW) := by
  refine ⟨by simp [readFW], ?_, by simp [readFW]⟩
  apply List.ext_getElem
  · simp only [readFW, List.length_map, List.length_range, List.length_append,
      List.length_replicate]
    omega
  · intro j hj1 hj2
    simp only [readFW, List.length_map, List.length_range] at hj1
    simp only [readFW, List.getElem_map, List.getElem_range]
    by_cases hjv : j < min n st.lengthFW
    · rw [List.getElem_append_left
        (by simp only [List.length_map, List.length_range]; omega)]
      simp only [List.getElem_map, List.getElem_range, sampleFW]
      rw [if_pos (by omega)]
    · rw [List.getElem_append_right
        (by simp only [List.length_map, List.length_range]; omega)]
      simp only [List.getElem_replicate, sampleFW]
      rw [if_neg (by omega)]

/-- Claim C9: `drop(track)` with an empty clipboard - its source slice is
the sentinel with `in > out`, e.g. the default `{-1, -2}` - returns without
any effect on the tape, the slice sets or the clipboard; likewise
`lift(track)` when the playhead lies inside no stored slice of that track
returns without effect. -/
theorem drop_lift_noop (st : TapeState) (track : Fin nTracks) :
    (st.clipboard.fromSlice.«in» > st.clipboard.fromSlice.out →
        drop track st = st)
    ∧ ((st.trackSlices track).inSlice (toInt32 st.playPoint) = false →
        lift track st = st) := by
  constructor
  · intro h
    simp only [drop]
    rw [if_pos h]
  · intro h
    have hall := List.any_eq_false.mp h
    have hnone : (st.trackSlices track).slices.find?
        (fun s => decide (s.«in» ≤ toInt32 st.playPoint
          ∧ toInt32 st.playPoint < s.out)) = none :=
      List.find?_eq_none.mpr hall
    simp only [lift, TapeSliceSet.current, hnone, Option.getD_none]
    rw [if_pos (by norm_num)]

/-- Witness for `drop_lift_noop` on the fresh state: default clipboard,
empty slice sets. -/
theorem drop_lift_noop_witness :
    drop 0 initState = initState ∧ lift 0 initState = initState :=
  ⟨(drop_lift_noop initState 0).1 (by decide),
   (drop_lift_noop initState 0).2 (by decide)⟩

/-- Inside the addressable window the slot map is the plain offset from the
anchor. -/
lemma slotOf_inWindow {posAt0 : Nat} {p : Int} (h : inWindow posAt0 p) :
    (slotOf posAt0 p : Int) = p - (posAt0 : Int) := by
  have hS : RingBuffer.SIZE = 262144 := rfl
  obtain ⟨h1, h2⟩ := h
  rw [hS] at h2
  simp only [slotOf, RingBuffer.wrapIdx, RingBuffer.SIZE, Nat.cast_ofNat]
  have hmod : (p - (posAt0 : Int)) % 4294967296 % 262144 = p - posAt0 := by
    omega
  rw [hmod, if_neg (by omega)]
  omega

/-- The slot map is injective on the addressable window. -/
lemma slotOf_inj {posAt0 : Nat} {p q : Int} (hp : inWindow posAt0 p)
    (hq : inWindow posAt0 q) (hne : p ≠ q) :
    slotOf posAt0 p ≠ slotOf posAt0 q := by
  intro he
  have e1 := slotOf_inWindow hp
  have e2 := slotOf_inWindow hq
  rw [he] at e1
  omega

/-- After the write loop, every slot written inside the window holds its
sample. -/
lemma writeFrames_getElem {posAt0 : Nat} {track : Fin nTracks}
    {data : List Sample} {base : Int} {buf0 : Nat → AudioFrame} {m : Nat}
    (hwin : ∀ i, i < m → inWindow posAt0 (base + i)) :
    ∀ i, i < m →
      writeFrames posAt0 track data base buf0 m (slotOf posAt0 (base + i)) track
        = data.getD i 0 := by
  induction m with
  | zero => intro i hi; omega
  | succ k ih =>
    intro i hi
    simp only [writeFrames]
    rw [if_pos (hwin k (Nat.lt_succ_self k))]
    by_cases hik : i = k
    · subst hik
      simp [updateBuf]
    · have hik2 : i < k := by omega
      have hne : slotOf posAt0 (base + (i : Int)) ≠ slotOf posAt0 (base + (k : Int)) := by
        apply slotOf_inj (hwin i (by omega)) (hwin k (Nat.lt_succ_self k))
        intro he
        apply hik
        omega
      simp only [updateBuf]
      rw [if_neg hne]
      exact ih (fun j hj => hwin j (by omega)) i hik2

/-- Claim C5: for every fully in-window forward write - every frame of
`data`, placed so that `data.back()` lands at `playPoint - 1`, falls inside
the buffer's addressable window - an immediately following
`readBW(len(data), track)` from the (unmoved) post-write playhead returns
`data` in reverse order. -/
theorem writeFW_readBW_reverse (st : TapeState) (data : List Sample)
    (track : Fin nTracks) (slice : TapeSlice)
    (hwin : ∀ i, i < data.length →
      inWindow st.posAt0 ((st.playPoint : Int) - data.length + i)) :
    (readBW data.length track (writeFW data track slice st).2).1
      = data.reverse := by
  have hunw : ((List.range data.length).filter
      (fun i : Nat => decide (¬ inWindow st.posAt0
        ((st.playPoint : Int) - (data.length : Int) + (i : Int))))).length = 0 := by
    rw [List.length_eq_zero, List.filter_eq_nil_iff]
    intro i hi
    have := hwin i (List.mem_range.mp hi)
    simp [this]
  have hppA : (writeFW data track slice st).2.playPoint = st.playPoint := rfl
  have hposA : (writeFW data track slice st).2.posAt0 = st.posAt0 := rfl
  have hbufA : (writeFW data track slice st).2.buf
      = writeFrames st.posAt0 track data ((st.playPoint : Int) - data.length)
          st.buf data.length := rfl
  have hlenA : (writeFW data track slice st).2.lengthBW
      = max st.lengthBW data.length := by
    simp only [writeFW]
    rw [if_pos hunw]
  apply List.ext_getElem
  · simp [readBW]
  · intro j hj1 hj2
    simp only [readBW, List.length_map, List.length_range] at hj1
    simp only [readBW, List.getElem_map, List.getElem_range, sampleBW,
      hppA, hposA, hbufA, hlenA]
    rw [if_pos (by omega)]
    have hidx : (st.playPoint : Int) - 1 - (j : Int)
        = ((st.playPoint : Int) - data.length) + ((data.length - 1 - j : Nat) : Int) := by
      omega
    rw [hidx, writeFrames_getElem hwin (data.length - 1 - j) (by omega)]
    rw [List.getD_eq_getElem data 0 (by omega), List.getElem_reverse]

/-- Witness for `writeFW_readBW_reverse`: writing `[1, 2, 3]` at playhead 4
of the fresh tape (positions 1, 2, 3, all inside the window anchored at 0)
and reading three frames backward yields `[3, 2, 1]`. -/
theorem writeFW_readBW_reverse_witness :
    (∀ i, i < ([1, 2, 3] : List Sample).length →
      inWindow demoState.posAt0
        ((demoState.playPoint : Int) - ([1, 2, 3] : List Sample).length + i))
    ∧ (readBW ([1, 2, 3] : List Sample).length 0
        (writeFW [1, 2, 3] 0 ⟨-1, -2⟩ demoState).2).1
      = ([1, 2, 3] : List Sample).reverse :=
  ⟨by decide, writeFW_readBW_reverse demoState [1, 2, 3] 0 ⟨-1, -2⟩ (by decide)⟩
